import Mathlib

/-!
bin2go: a binary blob rendered as a Go byte-slice literal

A shallow embedding of `bin2go.go`.  The program reads its whole input, then
writes `var <name> = []byte{ ... }` through a buffered writer, optionally after
a `package` clause.  Every function of the source is a definition here, with
the process state (standard streams, output file, buffered writer) passed
explicitly and `os.Exit` as a second kind of result.
-/

namespace Bin2go

/-! ## Data model -/

/-- Text is a sequence of characters. -/
abbrev Text := List Char

/-- One octet, the element type of Go's `[]byte`. -/
abbrev Byte := Fin 256

/-- The state of package `flag` once `flag.Parse` has returned: the three
string flags `in`, `out`, `pkg`, the positional arguments, `os.Args[0]`, and
the text `flag.PrintDefaults` prints for the three flags. -/
structure Flags where
  prog : Text
  inp : Text
  out : Text
  pkg : Text
  args : List Text
  defaults : Text

/-- Go's `flag.Arg(i)`: the i-th positional argument, empty when there is none. -/
def Flags.Arg (f : Flags) (i : Nat) : Text := f.args.getD i []

/-- Go's `flag.NArg()`. -/
def Flags.NArg (f : Flags) : Nat := f.args.length

/-- The operating system as the program meets it: what reading standard input
and reading a file return, whether `os.Create` fails, and an optional fault of
the output writer (`some (k, e)`: every writer call from the k-th on fails with
error text `e`). -/
structure Env where
  stdin : Except Text (List Byte)
  readFile : Text → Except Text (List Byte)
  createErr : Text → Option Text
  writeFault : Option (Nat × Text)

/-- The observable state of the process.  `reads` counts read operations on the
input, `file` is the content of the `-out` file once `os.Create` has created or
truncated it (`none`: untouched), `buf` is the text held by the `bufio.Writer`
and `calls` the number of calls made on it.  The buffer is unbounded here:
the text reaches its destination at `Flush`. -/
structure Proc where
  stdout : Text
  stderr : Text
  reads : Nat
  file : Option Text
  buf : Text
  calls : Nat
deriving DecidableEq

/-- The process at start: nothing read, nothing written. -/
def Proc.start : Proc := ⟨[], [], 0, none, [], 0⟩

/-- Either a function returned normally, or `os.Exit` ended the process. -/
inductive Step (α : Type) where
  | ok (a : α) (p : Proc)
  | exit (code : Nat) (p : Proc)
deriving DecidableEq

/-- A computation over the process state. -/
def Run (α : Type) : Type := Proc → Step α

/-- Sequencing: an exit ends the run. -/
def Run.bind {α β : Type} (m : Run α) (k : α → Run β) : Run β := fun p =>
  match m p with
  | .ok a q => k a q
  | .exit c q => .exit c q

instance : Monad Run where
  pure a := fun p => .ok a p
  bind := Run.bind

/-- The process state a step ends in. -/
def Step.proc {α : Type} : Step α → Proc
  | .ok _ p => p
  | .exit _ p => p

/-- The exit code of a step: `some c` after `os.Exit(c)`, `none` after a normal return. -/
def Step.code {α : Type} : Step α → Option Nat
  | .ok _ _ => none
  | .exit c _ => some c

/-! ## Exit error codes -/

def NO_ERROR : Nat := 0
def WRONG_ARGS : Nat := 1
def INPUT_FAIL : Nat := 2
def OUTPUT_FAIL : Nat := 3

/-! ## Library primitives -/

/-- Go's `os.Exit`. -/
def osExit {α : Type} (code : Nat) : Run α := fun p => .exit code p

/-- Writing to `os.Stdout` directly (`fmt.Printf`). -/
def printStdout (s : Text) : Run Unit := fun p =>
  .ok () { p with stdout := p.stdout ++ s }

/-- Writing to `os.Stderr` (`fmt.Fprintf(os.Stderr, ...)`). -/
def printStderr (s : Text) : Run Unit := fun p =>
  .ok () { p with stderr := p.stderr ++ s }

/-- The verb `%.Nx` of package `fmt` on an unsigned integer: lowercase
hexadecimal digits, padded with zeros on the left to at least `prec` digits. -/
def fmtHex (prec : Nat) (u : Nat) : Text :=
  let ds := Nat.toDigits 16 u
  List.replicate (prec - ds.length) '0' ++ ds

/-- A `fmt.Fprint`/`fmt.Fprintf` call on the buffered writer with the already
formatted text `s`: the text is appended to the buffer, or the call returns the
writer's error. -/
def Fprint (e : Env) (s : Text) : Run (Option Text) := fun p =>
  match e.writeFault with
  | some (k, err) =>
    if k ≤ p.calls then .ok (some err) { p with calls := p.calls + 1 }
    else .ok none { p with buf := p.buf ++ s, calls := p.calls + 1 }
  | none => .ok none { p with buf := p.buf ++ s, calls := p.calls + 1 }

/-- The destination of the buffered writer. -/
inductive Dest where
  | stdout
  | file
deriving DecidableEq

/-- Go's `bufio.Writer.Flush`: the buffered text moves to the destination. -/
def Flush (e : Env) (d : Dest) : Run (Option Text) := fun p =>
  let deliver : Proc :=
    match d with
    | .stdout => { p with stdout := p.stdout ++ p.buf, buf := [], calls := p.calls + 1 }
    | .file => { p with file := some (p.file.getD [] ++ p.buf), buf := [], calls := p.calls + 1 }
  match e.writeFault with
  | some (k, err) =>
    if k ≤ p.calls then .ok (some err) { p with calls := p.calls + 1 }
    else .ok none deliver
  | none => .ok none deliver

/-- Go's `os.Create`: the file is created or truncated, or an error comes back. -/
def osCreate (e : Env) (path : Text) : Run (Option Text) := fun p =>
  match e.createErr path with
  | some err => .ok (some err) p
  | none => .ok none { p with file := some [] }

/-- Go's `ioutil.ReadFile`. -/
def ReadFile (e : Env) (path : Text) : Run (Except Text (List Byte)) := fun p =>
  .ok (e.readFile path) { p with reads := p.reads + 1 }

/-- Go's `ioutil.ReadAll(os.Stdin)`. -/
def ReadAllStdin (e : Env) : Run (Except Text (List Byte)) := fun p =>
  .ok e.stdin { p with reads := p.reads + 1 }

/-! ## The program -/

/-- Source `printUsage`: the usage line goes through `fmt.Printf`, the flag
defaults through `flag.PrintDefaults` (which writes to standard error). -/
def printUsage (f : Flags) : Run Unit := do
  printStdout ("usage: ".toList ++ f.prog ++
    " [-in=<path>] [-out=<path>] [-pkg=<name>] <varname>\n".toList)
  printStderr f.defaults

/-- Source `printUsageAndExit`; `flag.Usage` is `printUsage` since `main` assigns it first. -/
def printUsageAndExit (f : Flags) : Run Unit := do
  printUsage f
  osExit WRONG_ARGS

/-- Source `readInput`. -/
def readInput (e : Env) (f : Flags) : Run (List Byte) := do
  let r ← if f.inp ≠ [] then ReadFile e f.inp else ReadAllStdin e
  match r with
  | .error err =>
    printStderr ("Failed to read input: ".toList ++ err ++ "\n".toList)
    osExit INPUT_FAIL
  | .ok data => pure data

/-- Source `checkOutputFailure`. -/
def checkOutputFailure (err : Option Text) : Run Unit :=
  match err with
  | some msg => do
    printStderr ("Failed to write output: ".toList ++ msg ++ "\n".toList)
    osExit OUTPUT_FAIL
  | none => pure ()

/-- The body of the `for i, b := range data` loop of `writeData`, iterated:
`i` is the index of the head of the remaining bytes, `n` the column counter. -/
def writeLoop (e : Env) (lastbytei : Int) : List Byte → Nat → Nat → Run Unit
  | [], _, _ => pure ()
  | b :: rest, i, n => do
    -- write single byte
    let err ← Fprint e ("0x".toList ++ fmtHex 2 b.val ++ ",".toList)
    checkOutputFailure err
    let n := n + 6
    -- if this is not the last byte
    if (i : Int) ≠ lastbytei then
      -- break line after 78 characters
      if n ≥ 78 then do
        let err ← Fprint e "\n\t".toList
        checkOutputFailure err
        writeLoop e lastbytei rest (i + 1) 8
      else do
        -- if we are not breaking the line, insert space after the comma
        let err ← Fprint e " ".toList
        checkOutputFailure err
        writeLoop e lastbytei rest (i + 1) n
    else
      writeLoop e lastbytei rest (i + 1) n

/-- Source `writeData`; the writer `out` is the process's buffered writer. -/
def writeData (e : Env) (f : Flags) (data : List Byte) : Run Unit := do
  let varname := f.Arg 0
  -- write header
  let err ← Fprint e ("var ".toList ++ varname ++ " = []byte\x7b\n\t".toList)
  checkOutputFailure err
  let lastbytei : Int := (data.length : Int) - 1
  writeLoop e lastbytei data 0 8
  let err ← Fprint e "\n\x7d\n".toList
  checkOutputFailure err

/-- Source `writeOutput`. -/
def writeOutput (e : Env) (f : Flags) (data : List Byte) : Run Unit := do
  -- prepare "output"
  let output ← (if f.out ≠ [] then do
      let err ← osCreate e f.out
      checkOutputFailure err
      pure Dest.file
    else
      pure Dest.stdout : Run Dest)
  -- write package clause if any
  if f.pkg ≠ [] then do
    let err ← Fprint e ("package ".toList ++ f.pkg ++ "\n\n".toList)
    checkOutputFailure err
  -- write data
  writeData e f data
  -- flush
  let err ← Flush e output
  checkOutputFailure err

/-- Source `main`, from the return of `flag.Parse` on. -/
def main (e : Env) (f : Flags) : Run Unit := do
  if f.NArg ≠ 1 then
    printUsageAndExit f
  let data ← readInput e f
  writeOutput e f data

/-! ## Observations -/

/-- An environment in which nothing fails: standard input holds `data`. -/
def Env.sound (data : List Byte) : Env :=
  ⟨.ok data, fun _ => .ok data, fun _ => none, none⟩

/-- The text `writeData` emits: what the writer holds after `writeData` ran on
a fresh process with a writer that accepts every call. -/
def writeDataText (f : Flags) (data : List Byte) : Text :=
  (writeData (Env.sound data) f data Proc.start).proc.buf

/-- The text `writeOutput` emits: what has reached the destination (the `-out`
file when one is named, standard output otherwise) after `writeOutput` ran on a
fresh process with nothing failing. -/
def writeOutputText (f : Flags) (data : List Byte) : Text :=
  let p := (writeOutput (Env.sound data) f data Proc.start).proc
  if f.out ≠ [] then p.file.getD [] else p.stdout

/-- A text without its last `n` characters. -/
def dropEnd (n : Nat) (t : Text) : Text := t.take (t.length - n)

/-- The body of the declaration: the emitted text without the header
`var N = []byte{\n\t` in front and without the closing `\n}\n` behind. -/
def writeDataBody (f : Flags) (data : List Byte) : Text :=
  dropEnd 3 ((writeDataText f data).drop
    ("var ".toList ++ f.Arg 0 ++ " = []byte\x7b\n\t".toList).length)

/-- Cutting a text at its line breaks. -/
def splitLines : Text → List Text
  | [] => [[]]
  | c :: cs =>
    if c = '\n' then [] :: splitLines cs
    else match splitLines cs with
      | l :: ls => (c :: l) :: ls
      | [] => [[c]]

/-- The body lines: the lines after the header line `var N = []byte{` and
before the closing line `}`. -/
def bodyLines (f : Flags) (data : List Byte) : List Text :=
  splitLines (dropEnd 3 ((writeDataText f data).drop
    ("var ".toList ++ f.Arg 0 ++ " = []byte\x7b\n".toList).length))

/-- The width of a line in columns: a leading tab counts 8, every other character 1. -/
def lineWidth : Text → Nat
  | [] => 0
  | c :: rest => (if c = '\t' then 8 else 1) + rest.length

/-- Membership in `[0-9a-f]`. -/
def isHexDigit (c : Char) : Bool := c ∈ "0123456789abcdef".toList

/-- The tokens of a text: for every occurrence of `0x`, in order, the longest
run of characters of `[0-9a-f]` that follows it. -/
def hexTokens : Text → List Text
  | [] => []
  | c :: cs =>
    if c = '0' ∧ cs.head? = some 'x' then cs.tail.takeWhile isHexDigit :: hexTokens cs
    else hexTokens cs

/-- The separator the loop writes after the byte of index `i` out of `total`:
nothing after the last byte, a line break and a tab after every twelfth byte,
a space otherwise. -/
def sepAfter (total i : Nat) : Text :=
  if i + 1 = total then []
  else if (i + 1) % 12 = 0 then "\n\t".toList
  else " ".toList

/-- The text of the loop in closed form, from the byte of index `i` on. -/
def bodyFrom (total : Nat) : Nat → List Byte → Text
  | _, [] => []
  | i, b :: rest =>
    "0x".toList ++ fmtHex 2 b.val ++ ",".toList ++ sepAfter total i ++ bodyFrom total (i + 1) rest

/-- The shape of one entry: `0x`, two characters of `[0-9a-f]`, a comma. -/
def IsEntry (t : Text) : Prop :=
  ∃ c d : Char, isHexDigit c = true ∧ isHexDigit d = true ∧ t = ['0', 'x', c, d, ',']

/-- The process after the writer accepted the text `s` in `k` calls. -/
def Proc.emit (p : Proc) (s : Text) (k : Nat) : Proc :=
  { p with buf := p.buf ++ s, calls := p.calls + k }

/-! ## The run of the writer -/

theorem Proc.emit_emit (p : Proc) (s t : Text) (j k : Nat) :
    (p.emit s j).emit t k = p.emit (s ++ t) (j + k) := by
  simp [Proc.emit, List.append_assoc, Nat.add_assoc]

theorem Fprint_sound (e : Env) (h : e.writeFault = none) (s : Text) (p : Proc) :
    Fprint e s p = .ok none (p.emit s 1) := by
  simp [Fprint, h, Proc.emit]

theorem writeLoop_sound (e : Env) (h : e.writeFault = none) (data : List Byte) :
    ∀ (i n : Nat) (p : Proc), n = 8 + 6 * (i % 12) →
      ∃ k, writeLoop e ((i + data.length : Nat) - 1 : Int) data i n p
        = .ok () (p.emit (bodyFrom (i + data.length) i data) k) := by
  induction data with
  | nil =>
    intro i n p _
    exact ⟨0, by simp [writeLoop, bodyFrom, Proc.emit, pure]⟩
  | cons b rest ih =>
    intro i n p hn
    have hlen : i + (b :: rest).length = (i + 1) + rest.length := by
      simp [List.length_cons]; omega
    rw [hlen]
    by_cases hlast : rest.length = 0
    · have hr : rest = [] := List.length_eq_zero.mp hlast
      subst hr
      refine ⟨1, ?_⟩
      simp [writeLoop, bodyFrom, sepAfter, bind, Run.bind, Fprint_sound e h, checkOutputFailure,
        pure, Proc.emit]
    · by_cases hbrk : n + 6 ≥ 78
      · obtain ⟨k, hk⟩ := ih (i + 1) 8 (p.emit ("0x".toList ++ fmtHex 2 b.val ++ ",".toList ++
          "\n\t".toList) 2) (by omega)
        refine ⟨2 + k, ?_⟩
        have hne : ¬ ((i : Int) = ((i + 1 + rest.length : Nat) : Int) - 1) := by omega
        have hs : sepAfter (i + 1 + rest.length) i = "\n\t".toList := by
          unfold sepAfter
          rw [if_neg (by omega), if_pos (by omega)]
        unfold writeLoop
        simp only [bind, Run.bind, Fprint_sound e h, checkOutputFailure, pure, ne_eq, hne,
          not_false_eq_true, if_true, hbrk, Proc.emit_emit]
        simp only [Proc.emit_emit] at hk
        rw [hk]
        simp [bodyFrom, hs, List.append_assoc]
      · obtain ⟨k, hk⟩ := ih (i + 1) (n + 6) (p.emit ("0x".toList ++ fmtHex 2 b.val ++
          ",".toList ++ " ".toList) 2) (by omega)
        refine ⟨2 + k, ?_⟩
        have hne : ¬ ((i : Int) = ((i + 1 + rest.length : Nat) : Int) - 1) := by omega
        have hs : sepAfter (i + 1 + rest.length) i = " ".toList := by
          unfold sepAfter
          rw [if_neg (by omega), if_neg (by omega)]
        unfold writeLoop
        simp only [bind, Run.bind, Fprint_sound e h, checkOutputFailure, pure, ne_eq, hne,
          not_false_eq_true, if_true, hbrk, if_false, Proc.emit_emit]
        simp only [Proc.emit_emit] at hk
        rw [hk]
        simp [bodyFrom, hs, List.append_assoc]

theorem writeData_sound (e : Env) (h : e.writeFault = none) (f : Flags) (data : List Byte)
    (p : Proc) :
    ∃ k, writeData e f data p = .ok () (p.emit ("var ".toList ++ f.Arg 0 ++
      " = []byte\x7b\n\t".toList ++ bodyFrom data.length 0 data ++ "\n\x7d\n".toList) k) := by
  obtain ⟨k, hk⟩ := writeLoop_sound e h data 0 8
    (p.emit ("var ".toList ++ f.Arg 0 ++ " = []byte\x7b\n\t".toList) 1) (by omega)
  refine ⟨1 + k + 1, ?_⟩
  simp only [Nat.zero_add, Proc.emit_emit] at hk
  unfold writeData
  simp only [bind, Run.bind, Fprint_sound e h, checkOutputFailure, pure, Nat.cast_inj, hk,
    Proc.emit_emit]

theorem writeDataText_eq (f : Flags) (data : List Byte) :
    writeDataText f data = "var ".toList ++ f.Arg 0 ++ " = []byte\x7b\n\t".toList ++
      bodyFrom data.length 0 data ++ "\n\x7d\n".toList := by
  obtain ⟨k, hk⟩ := writeData_sound (Env.sound data) rfl f data Proc.start
  unfold writeDataText
  rw [hk]
  simp [Step.proc, Proc.emit, Proc.start]

theorem dropEnd_append (a b : Text) : dropEnd b.length (a ++ b) = a := by
  simp [dropEnd]

theorem writeDataBody_eq (f : Flags) (data : List Byte) :
    writeDataBody f data = bodyFrom data.length 0 data := by
  unfold writeDataBody
  have h : writeDataText f data = ("var ".toList ++ f.Arg 0 ++ " = []byte\x7b\n\t".toList) ++
      (bodyFrom data.length 0 data ++ "\n\x7d\n".toList) := by
    rw [writeDataText_eq]; simp [List.append_assoc]
  rw [h, List.drop_left]
  exact dropEnd_append _ "\n\x7d\n".toList

theorem bodyLines_eq (f : Flags) (data : List Byte) :
    bodyLines f data = splitLines ('\t' :: bodyFrom data.length 0 data) := by
  unfold bodyLines
  have h : writeDataText f data = ("var ".toList ++ f.Arg 0 ++ " = []byte\x7b\n".toList) ++
      (('\t' :: bodyFrom data.length 0 data) ++ "\n\x7d\n".toList) := by
    rw [writeDataText_eq]; simp [List.append_assoc]
  rw [h, List.drop_left]
  exact congrArg splitLines (dropEnd_append _ "\n\x7d\n".toList)

/-! ## The hexadecimal literal of a byte -/

theorem fmtHex_byte (b : Byte) :
    fmtHex 2 b.val = ["0123456789abcdef".toList.getD (b.val / 16) '0',
      "0123456789abcdef".toList.getD (b.val % 16) '0'] := by
  have h : ∀ n : Nat, n < 256 → fmtHex 2 n = ["0123456789abcdef".toList.getD (n / 16) '0',
      "0123456789abcdef".toList.getD (n % 16) '0'] := by
    intro n hn
    interval_cases n <;> rfl
  exact h b.val b.isLt

/-! ## The shape of the declaration -/

/-- C2: for every byte sequence and every identifier (the first positional
argument), the text `writeData` emits starts with `var N = []byte{\n\t`, the
identifier standing in it verbatim, and ends with `\n}\n`. -/
theorem writeData_header_and_footer (f : Flags) (data : List Byte) :
    ("var ".toList ++ f.Arg 0 ++ " = []byte\x7b\n\t".toList) <+: writeDataText f data ∧
    "\n\x7d\n".toList <:+ writeDataText f data := by
  rw [writeDataText_eq]
  exact ⟨⟨bodyFrom data.length 0 data ++ "\n\x7d\n".toList, by simp [List.append_assoc]⟩,
    ⟨"var ".toList ++ f.Arg 0 ++ " = []byte\x7b\n\t".toList ++ bodyFrom data.length 0 data, rfl⟩⟩

/-- C3: for the empty byte sequence the text `writeData` emits is exactly
`var N = []byte{\n\t\n}\n`, with no literal, comma or separator; for the
identifier `x` it is `var x = []byte{\n\t\n}\n`. -/
theorem writeData_empty (f : Flags) :
    writeDataText f [] = "var ".toList ++ f.Arg 0 ++ " = []byte\x7b\n\t\n\x7d\n".toList ∧
    writeDataText ⟨[], [], [], [], ["x".toList], []⟩ [] = "var x = []byte\x7b\n\t\n\x7d\n".toList := by
  constructor
  · rw [writeDataText_eq]; simp [bodyFrom]
  · decide

/-! ## The last byte -/

theorem sepAfter_inner (total j : Nat) (h : j + 1 ≠ total) :
    sepAfter total j = " ".toList ∨ sepAfter total j = "\n\t".toList := by
  unfold sepAfter
  rw [if_neg h]
  by_cases h12 : (j + 1) % 12 = 0
  · right; rw [if_pos h12]
  · left; rw [if_neg h12]

theorem bodyFrom_snoc (last : Byte) (front : List Byte) :
    ∀ i : Nat, bodyFrom (i + front.length + 1) i (front ++ [last]) =
      (List.zipWith (fun (b : Byte) (s : Text) => "0x".toList ++ fmtHex 2 b.val ++ ",".toList ++ s)
        front ((List.range' i front.length).map (sepAfter (i + front.length + 1)))).flatten ++
      ("0x".toList ++ fmtHex 2 last.val ++ ",".toList) := by
  induction front with
  | nil =>
    intro i
    simp [bodyFrom, sepAfter]
  | cons a front ih =>
    intro i
    have ht : i + (a :: front).length + 1 = (i + 1) + front.length + 1 := by
      simp [List.length_cons]; omega
    rw [ht]
    have hstep := ih (i + 1)
    rw [List.cons_append, bodyFrom, hstep]
    simp [List.range'_succ, List.append_assoc]

/-- C1, as amended: for every non-empty byte sequence the emitted text is the
header, then every byte but the last as its literal, a comma and a separator (a
space or a line break with a tab), then the last byte as its literal and a
comma, that comma immediately followed by `\n}\n`; for the bytes `00 01` and
the identifier `b` the text is `var b = []byte{\n\t0x00, 0x01,\n}\n`. -/
theorem writeData_last_byte (f : Flags) (data : List Byte) (hne : data ≠ []) :
    (∃ (front : List Byte) (last : Byte) (seps : List Text),
      data = front ++ [last] ∧ seps.length = front.length ∧
      (∀ s ∈ seps, s = " ".toList ∨ s = "\n\t".toList) ∧
      writeDataText f data = "var ".toList ++ f.Arg 0 ++ " = []byte\x7b\n\t".toList ++
        (List.zipWith (fun (b : Byte) (s : Text) =>
          "0x".toList ++ fmtHex 2 b.val ++ ",".toList ++ s) front seps).flatten ++
        ("0x".toList ++ fmtHex 2 last.val ++ ",".toList) ++ "\n\x7d\n".toList) ∧
    writeDataText ⟨[], [], [], [], ["b".toList], []⟩ [0x00, 0x01]
      = "var b = []byte\x7b\n\t0x00, 0x01,\n\x7d\n".toList := by
  refine ⟨?_, by decide⟩
  obtain ⟨front, last, rfl⟩ : ∃ front last, data = front ++ [last] :=
    ⟨data.dropLast, data.getLast hne, (List.dropLast_append_getLast hne).symm⟩
  refine ⟨front, last, (List.range' 0 front.length).map (sepAfter (0 + front.length + 1)),
    rfl, by simp, ?_, ?_⟩
  · intro s hs
    obtain ⟨j, hj, rfl⟩ := List.mem_map.mp hs
    have hlt : j < 0 + front.length := by
      have := (List.mem_range'_1.mp hj).2
      omega
    exact sepAfter_inner _ j (by omega)
  · rw [writeDataText_eq]
    have hl : (front ++ [last]).length = 0 + front.length + 1 := by simp
    rw [hl, bodyFrom_snoc last front 0]
    simp only [List.append_assoc]

/-- C1 witness of `writeData_last_byte`: three bytes under the identifier `v`. -/
theorem writeData_last_byte_witness :
    (∃ (front : List Byte) (last : Byte) (seps : List Text),
      ([0x0a, 0xff, 0x7f] : List Byte) = front ++ [last] ∧ seps.length = front.length ∧
      (∀ s ∈ seps, s = " ".toList ∨ s = "\n\t".toList) ∧
      writeDataText ⟨[], [], [], [], ["v".toList], []⟩ [0x0a, 0xff, 0x7f] =
        "var ".toList ++ Flags.Arg ⟨[], [], [], [], ["v".toList], []⟩ 0 ++
        " = []byte\x7b\n\t".toList ++
        (List.zipWith (fun (b : Byte) (s : Text) =>
          "0x".toList ++ fmtHex 2 b.val ++ ",".toList ++ s) front seps).flatten ++
        ("0x".toList ++ fmtHex 2 last.val ++ ",".toList) ++ "\n\x7d\n".toList) ∧
    writeDataText ⟨[], [], [], [], ["b".toList], []⟩ [0x00, 0x01]
      = "var b = []byte\x7b\n\t0x00, 0x01,\n\x7d\n".toList :=
  writeData_last_byte ⟨[], [], [], [], ["v".toList], []⟩ [0x0a, 0xff, 0x7f] (by decide)

/-- C1 as stated fails: for the bytes `00 01` and the identifier `b` the emitted
text is not `var b = []byte{\n\t0x00, 0x01\n}\n`, a comma follows `0x01`. -/
theorem writeData_last_byte_has_comma :
    writeDataText ⟨[], [], [], [], ["b".toList], []⟩ [0x00, 0x01]
      ≠ "var b = []byte\x7b\n\t0x00, 0x01\n\x7d\n".toList := by
  decide

/-! ## The package clause -/

theorem Flush_sound (e : Env) (h : e.writeFault = none) (d : Dest) (p : Proc) :
    Flush e d p = .ok none (match d with
      | .stdout => { p with stdout := p.stdout ++ p.buf, buf := [], calls := p.calls + 1 }
      | .file => { p with file := some (p.file.getD [] ++ p.buf), buf := [],
                          calls := p.calls + 1 }) := by
  simp [Flush, h]

/-- C6: with a package name the text `writeOutput` delivers is
`package P\n\n` followed by the declaration `writeData` emits; without one it
is that declaration alone, which begins with `var `. -/
theorem writeOutput_package_clause (f : Flags) (data : List Byte) :
    writeOutputText f data =
      (if f.pkg ≠ [] then "package ".toList ++ f.pkg ++ "\n\n".toList else []) ++
        writeDataText f data ∧
    "var ".toList <+: writeDataText f data := by
  constructor
  · have he : (Env.sound data).writeFault = none := rfl
    have hc : ∀ path, (Env.sound data).createErr path = none := fun _ => rfl
    unfold writeOutputText writeOutput
    by_cases hout : f.out = [] <;> by_cases hpkg : f.pkg = []
    · obtain ⟨k, hk⟩ := writeData_sound (Env.sound data) he f data Proc.start
      simp only [bind, Run.bind, pure, hout, hpkg, ne_eq, not_true_eq_false, if_false, hk,
        Flush_sound _ he, checkOutputFailure, Step.proc]
      simp [Proc.emit, Proc.start, writeDataText_eq]
    · obtain ⟨k, hk⟩ := writeData_sound (Env.sound data) he f data
        (Proc.start.emit ("package ".toList ++ f.pkg ++ "\n\n".toList) 1)
      simp only [bind, Run.bind, pure, hout, hpkg, ne_eq, not_true_eq_false, if_false,
        not_false_eq_true, if_true, Fprint_sound _ he, hk, Flush_sound _ he, checkOutputFailure,
        Step.proc]
      simp [Proc.emit, Proc.start, writeDataText_eq]
    · obtain ⟨k, hk⟩ := writeData_sound (Env.sound data) he f data
        { Proc.start with file := some [] }
      simp only [bind, Run.bind, pure, hout, hpkg, ne_eq, not_true_eq_false, if_false,
        not_false_eq_true, if_true, osCreate, hc, hk, Flush_sound _ he, checkOutputFailure,
        Step.proc]
      simp [Proc.emit, Proc.start, writeDataText_eq]
    · obtain ⟨k, hk⟩ := writeData_sound (Env.sound data) he f data
        (Proc.emit { Proc.start with file := some [] }
          ("package ".toList ++ f.pkg ++ "\n\n".toList) 1)
      simp only [bind, Run.bind, pure, hout, hpkg, ne_eq, not_true_eq_false, if_false,
        not_false_eq_true, if_true, osCreate, hc, Fprint_sound _ he, hk, Flush_sound _ he,
        checkOutputFailure, Step.proc]
      simp [Proc.emit, Proc.start, writeDataText_eq]
  · rw [writeDataText_eq]
    exact ⟨f.Arg 0 ++ " = []byte\x7b\n\t".toList ++ bodyFrom data.length 0 data ++
      "\n\x7d\n".toList, by simp [List.append_assoc]⟩

/-! ## Exits -/

/-- C7, the code at zero positional arguments: the process exits with code 1
without reading input or touching the `-out` file, but the usage line is on
standard output and only the flag defaults are on the error stream. -/
theorem main_no_args_usage_on_stdout :
    main (Env.sound [0x00]) ⟨"bin2go".toList, [], "o.go".toList, [], [], "  -in ...\n".toList⟩
      Proc.start
    = .exit 1 ⟨"usage: bin2go [-in=<path>] [-out=<path>] [-pkg=<name>] <varname>\n".toList,
        "  -in ...\n".toList, 0, none, [], 0⟩ := by
  decide

/-- C8: with exactly one positional argument, when reading the input fails (the
`-in` file when one is named, standard input otherwise) the process exits with
code 2 (`INPUT_FAIL`) after one read and a message on the error stream: the
`-out` file is untouched, standard output and the writer hold nothing. -/
theorem main_input_failure (e : Env) (f : Flags) (err : Text) (hargs : f.NArg = 1)
    (hread : (if f.inp ≠ [] then e.readFile f.inp else e.stdin) = .error err) :
    main e f Proc.start = .exit INPUT_FAIL
      ⟨[], "Failed to read input: ".toList ++ err ++ "\n".toList, 1, none, [], 0⟩ ∧
    INPUT_FAIL = 2 := by
  refine ⟨?_, rfl⟩
  unfold main readInput
  by_cases hin : f.inp = []
  · simp only [hin, ne_eq, not_true_eq_false, if_false] at hread
    simp [bind, Run.bind, pure, hargs, hin, ReadAllStdin, hread, printStderr, osExit, Proc.start]
  · simp only [hin, ne_eq, not_false_eq_true, if_true] at hread
    simp [bind, Run.bind, pure, hargs, hin, ReadFile, hread, printStderr, osExit, Proc.start]

/-- C8 witness of `main_input_failure`: the file named by `-in` is missing. -/
theorem main_input_failure_witness :
    main ⟨.ok [], fun _ => .error "open blob: no such file".toList, fun _ => none, none⟩
        ⟨"bin2go".toList, "blob".toList, "o.go".toList, "p".toList, ["x".toList], []⟩ Proc.start
      = .exit INPUT_FAIL
        ⟨[], "Failed to read input: ".toList ++ "open blob: no such file".toList ++ "\n".toList,
          1, none, [], 0⟩ ∧
    INPUT_FAIL = 2 :=
  main_input_failure _ _ _ (by decide) (by simp)

/-! ## Lines -/

theorem splitLines_ne_nil (t : Text) : splitLines t ≠ [] := by
  cases t with
  | nil => simp [splitLines]
  | cons c cs =>
    unfold splitLines
    split
    · simp
    · split <;> simp

theorem splitLines_append_break (b : Text) :
    ∀ a : Text, '\n' ∉ a → splitLines (a ++ '\n' :: b) = a :: splitLines b := by
  intro a
  induction a with
  | nil => intro _; simp [splitLines]
  | cons c a ih =>
    intro h
    have hc : c ≠ '\n' := fun hEq => h (by simp [hEq])
    have ha : '\n' ∉ a := fun hm => h (List.mem_cons_of_mem _ hm)
    rw [List.cons_append, splitLines, if_neg hc, ih ha]

theorem splitLines_of_no_break : ∀ a : Text, '\n' ∉ a → splitLines a = [a] := by
  intro a
  induction a with
  | nil => intro _; simp [splitLines]
  | cons c a ih =>
    intro h
    have hc : c ≠ '\n' := fun hEq => h (by simp [hEq])
    have ha : '\n' ∉ a := fun hm => h (List.mem_cons_of_mem _ hm)
    rw [splitLines, if_neg hc, ih ha]

theorem entry_of_byte (b : Byte) : IsEntry ("0x".toList ++ fmtHex 2 b.val ++ ",".toList) := by
  have h : ∀ n : Nat, n < 256 → IsEntry ("0x".toList ++ fmtHex 2 n ++ ",".toList) := by
    intro n hn
    interval_cases n <;> refine ⟨_, _, ?_, ?_, rfl⟩ <;> rfl
  exact h b.val b.isLt

theorem entry_no_break (t : Text) (h : IsEntry t) : '\n' ∉ t := by
  obtain ⟨c, d, hc, hd, rfl⟩ := h
  intro hm
  simp only [List.mem_cons, List.mem_singleton, List.not_mem_nil, or_false] at hm
  rcases hm with hm | hm | hm | hm | hm
  · exact absurd hm (by decide)
  · exact absurd hm (by decide)
  · rw [← hm] at hc; exact absurd hc (by decide)
  · rw [← hm] at hd; exact absurd hd (by decide)
  · exact absurd hm (by decide)

/-- The lines of the loop's text, by induction along the bytes: with an
invariant `I` of the line under construction, every finished line satisfies
`Pfull` and the line under construction at the end satisfies `Plast`. -/
theorem lines_induct (total : Nat) (I : Nat → Text → Prop) (Pfull Plast : Text → Prop)
    (hstart : ∀ i, i % 12 = 0 → I i ['\t'])
    (hstep : ∀ i cur t, I i cur → IsEntry t → (i + 1) % 12 ≠ 0 → I (i + 1) (cur ++ t ++ [' ']))
    (hbreak : ∀ i cur t, I i cur → IsEntry t → (i + 1) % 12 = 0 → Pfull (cur ++ t))
    (hlast : ∀ i cur t, I i cur → IsEntry t → Plast (cur ++ t))
    (hempty : ∀ i cur, I i cur → Plast cur) :
    ∀ (data : List Byte) (i : Nat) (cur : Text), total = i + data.length → '\n' ∉ cur →
      I i cur →
      ∃ (full : List Text) (final : Text),
        splitLines (cur ++ bodyFrom total i data) = full ++ [final] ∧
        (∀ l ∈ full, Pfull l) ∧ Plast final := by
  intro data
  induction data with
  | nil =>
    intro i cur _ hnl hI
    exact ⟨[], cur, by simp [bodyFrom, splitLines_of_no_break cur hnl], by simp, hempty i cur hI⟩
  | cons b rest ih =>
    intro i cur htot hnl hI
    have hent := entry_of_byte b
    have hentnl := entry_no_break _ hent
    have hnl2 : '\n' ∉ cur ++ ("0x".toList ++ fmtHex 2 b.val ++ ",".toList) := by
      intro hm
      rcases List.mem_append.mp hm with hm | hm
      · exact hnl hm
      · exact hentnl hm
    rw [bodyFrom]
    by_cases hr : rest = []
    · subst hr
      have hs : sepAfter total i = [] := by
        unfold sepAfter
        rw [if_pos (by simp at htot; omega)]
      refine ⟨[], cur ++ ("0x".toList ++ fmtHex 2 b.val ++ ",".toList), ?_, by simp,
        hlast i cur _ hI hent⟩
      rw [hs, bodyFrom, List.append_nil, List.append_nil, splitLines_of_no_break _ hnl2]
      rfl
    · have hlen : 0 < rest.length := List.length_pos.mpr hr
      have htot2 : total = (i + 1) + rest.length := by
        simp only [List.length_cons] at htot; omega
      by_cases h12 : (i + 1) % 12 = 0
      · have hs : sepAfter total i = "\n\t".toList := by
          unfold sepAfter
          rw [if_neg (by omega), if_pos h12]
        obtain ⟨full, final, hsp, hfull, hfin⟩ :=
          ih (i + 1) ['\t'] htot2 (by decide) (hstart (i + 1) h12)
        refine ⟨(cur ++ ("0x".toList ++ fmtHex 2 b.val ++ ",".toList)) :: full, final, ?_, ?_,
          hfin⟩
        · have hre : cur ++ ("0x".toList ++ fmtHex 2 b.val ++ ",".toList ++ sepAfter total i ++
              bodyFrom total (i + 1) rest) =
              (cur ++ ("0x".toList ++ fmtHex 2 b.val ++ ",".toList)) ++
                '\n' :: (['\t'] ++ bodyFrom total (i + 1) rest) := by
            rw [hs]; simp [List.append_assoc]
          rw [hre, splitLines_append_break _ _ hnl2, hsp]
          rfl
        · intro l hl
          rcases List.mem_cons.mp hl with rfl | hl
          · exact hbreak i cur _ hI hent h12
          · exact hfull l hl
      · have hs : sepAfter total i = " ".toList := by
          unfold sepAfter
          rw [if_neg (by omega), if_neg h12]
        have hnl3 : '\n' ∉ cur ++ ("0x".toList ++ fmtHex 2 b.val ++ ",".toList) ++ [' '] := by
          intro hm
          rcases List.mem_append.mp hm with hm | hm
          · exact hnl2 hm
          · exact absurd hm (by decide)
        obtain ⟨full, final, hsp, hfull, hfin⟩ :=
          ih (i + 1) (cur ++ ("0x".toList ++ fmtHex 2 b.val ++ ",".toList) ++ [' ']) htot2 hnl3
            (hstep i cur _ hI hent h12)
        refine ⟨full, final, ?_, hfull, hfin⟩
        rw [← hsp, hs]
        congr 1
        simp [List.append_assoc]

theorem lineWidth_append (cur x : Text) (h : cur ≠ []) :
    lineWidth (cur ++ x) = lineWidth cur + x.length := by
  cases cur with
  | nil => exact absurd rfl h
  | cons c r => simp [lineWidth]; omega

theorem entry_length (t : Text) (h : IsEntry t) : t.length = 5 := by
  obtain ⟨c, d, _, _, rfl⟩ := h
  rfl

/-- C5: every body line is at most 78 + 6 = 84 columns wide, the leading tab
counted as 8 columns and every other character as 1. -/
theorem body_line_width (f : Flags) (data : List Byte) (l : Text)
    (hl : l ∈ bodyLines f data) : lineWidth l ≤ 78 + 6 := by
  rw [bodyLines_eq] at hl
  obtain ⟨full, final, hsp, hfull, hfin⟩ :=
    lines_induct data.length (fun i cur => cur ≠ [] ∧ lineWidth cur ≤ 8 + 6 * (i % 12))
      (fun l => lineWidth l ≤ 79) (fun l => lineWidth l ≤ 79)
      (fun i _ => ⟨by simp, by simp [lineWidth]⟩)
      (fun i cur t hI ht h12 => by
        refine ⟨by simp, ?_⟩
        rw [List.append_assoc, lineWidth_append _ _ hI.1, List.length_append, entry_length t ht]
        have := hI.2
        simp only [List.length_singleton]
        omega)
      (fun i cur t hI ht _ => by
        show lineWidth (cur ++ t) ≤ 79
        rw [lineWidth_append _ _ hI.1, entry_length t ht]
        have := hI.2
        omega)
      (fun i cur t hI ht => by
        show lineWidth (cur ++ t) ≤ 79
        rw [lineWidth_append _ _ hI.1, entry_length t ht]
        have := hI.2
        omega)
      (fun i cur hI => by
        show lineWidth cur ≤ 79
        have := hI.2
        omega)
      data 0 ['\t'] (by simp) (by decide) ⟨by simp, by simp [lineWidth]⟩
  rw [show '\t' :: bodyFrom data.length 0 data = ['\t'] ++ bodyFrom data.length 0 data from rfl,
    hsp] at hl
  rcases List.mem_append.mp hl with hl | hl
  · have := hfull l hl
    omega
  · rw [List.mem_singleton.mp hl]
    omega

/-- C5 witness of `body_line_width`: the first body line of thirteen bytes `ff`
under the identifier `w`, which is 79 columns wide. -/
theorem body_line_width_witness :
    lineWidth ("\t0xff, 0xff, 0xff, 0xff, 0xff, 0xff, 0xff, 0xff, 0xff, 0xff, 0xff, 0xff,".toList)
      ≤ 78 + 6 :=
  body_line_width ⟨[], [], [], [], ["w".toList], []⟩ (List.replicate 13 0xff)
    "\t0xff, 0xff, 0xff, 0xff, 0xff, 0xff, 0xff, 0xff, 0xff, 0xff, 0xff, 0xff,".toList
    (by decide!)

/-! ## Tokens -/

theorem hexTokens_skip (c : Char) (r : Text) (h : c ≠ '0') : hexTokens (c :: r) = hexTokens r := by
  rw [hexTokens, if_neg (fun hh => h hh.1)]

theorem hexTokens_entry (c d : Char) (hc : isHexDigit c = true) (hd : isHexDigit d = true)
    (r : Text) : hexTokens ('0' :: 'x' :: c :: d :: ',' :: r) = [c, d] :: hexTokens r := by
  have hdx : d ≠ 'x' := by
    rintro rfl
    exact absurd hd (by decide)
  have hcomma : isHexDigit ',' = false := by decide
  have h1 : hexTokens (d :: ',' :: r) = hexTokens r := by
    rw [hexTokens, if_neg (fun hh => absurd hh.2 (by simp)), hexTokens_skip _ _ (by decide)]
  have h2 : hexTokens (c :: d :: ',' :: r) = hexTokens r := by
    rw [hexTokens, if_neg (fun hh => hdx (by simpa using hh.2)), h1]
  rw [hexTokens, if_pos ⟨rfl, rfl⟩, hexTokens_skip _ _ (by decide), h2]
  simp [List.takeWhile, hc, hd, hcomma]

theorem hexTokens_lit (b : Byte) (r : Text) :
    hexTokens ("0x".toList ++ fmtHex 2 b.val ++ ",".toList ++ r) =
      fmtHex 2 b.val :: hexTokens r := by
  obtain ⟨c, d, hc, hd, he⟩ := entry_of_byte b
  have hf : fmtHex 2 b.val = [c, d] := by
    have h2 : "0x".toList ++ fmtHex 2 b.val ++ ",".toList = ['0', 'x'] ++ ([c, d] ++ [',']) := he
    rw [List.append_assoc] at h2
    have h3 := List.append_cancel_left h2
    exact List.append_cancel_right h3
  rw [he, hf]
  exact hexTokens_entry c d hc hd r

theorem hexTokens_sepAfter (total i : Nat) (r : Text) :
    hexTokens (sepAfter total i ++ r) = hexTokens r := by
  unfold sepAfter
  split
  · rfl
  · split
    · show hexTokens ('\n' :: '\t' :: r) = hexTokens r
      rw [hexTokens_skip _ _ (by decide), hexTokens_skip _ _ (by decide)]
    · show hexTokens (' ' :: r) = hexTokens r
      rw [hexTokens_skip _ _ (by decide)]

theorem hexTokens_bodyFrom (total : Nat) (data : List Byte) :
    ∀ i : Nat, hexTokens (bodyFrom total i data) = data.map (fun b => fmtHex 2 b.val) := by
  induction data with
  | nil => intro i; rfl
  | cons b rest ih =>
    intro i
    rw [bodyFrom, List.append_assoc, hexTokens_lit, hexTokens_sepAfter, ih (i + 1)]
    rfl

theorem fmtHex_injective (a b : Byte) (h : fmtHex 2 a.val = fmtHex 2 b.val) : a = b := by
  rw [fmtHex_byte a, fmtHex_byte b] at h
  have hd : ∀ i j : Fin 16, "0123456789abcdef".toList.getD i.val '0' =
      "0123456789abcdef".toList.getD j.val '0' → i = j := by decide
  have h1 := hd ⟨a.val / 16, by omega⟩ ⟨b.val / 16, by omega⟩ (List.cons.inj h).1
  have h2 := hd ⟨a.val % 16, by omega⟩ ⟨b.val % 16, by omega⟩
    (List.cons.inj (List.cons.inj h).2).1
  have h3 : a.val / 16 = b.val / 16 := congrArg Fin.val h1
  have h4 : a.val % 16 = b.val % 16 := congrArg Fin.val h2
  exact Fin.ext (by omega)

/-- C4: the body holds exactly as many `0x` tokens as there are bytes; the
i-th token is followed by exactly the literal of the i-th byte, which is two
characters, the digits of `b / 16` and `b % 16` in `0123456789abcdef`. -/
theorem body_tokens (f : Flags) (data : List Byte) :
    hexTokens (writeDataBody f data) = data.map (fun b => fmtHex 2 b.val) ∧
    (hexTokens (writeDataBody f data)).length = data.length ∧
    ∀ b : Byte, ∃ c d : Char, fmtHex 2 b.val = [c, d] ∧
      "0123456789abcdef".toList[b.val / 16]? = some c ∧
      "0123456789abcdef".toList[b.val % 16]? = some d := by
  rw [writeDataBody_eq, hexTokens_bodyFrom]
  refine ⟨rfl, by simp, ?_⟩
  intro b
  refine ⟨_, _, fmtHex_byte b, ?_, ?_⟩
  · have hlt : b.val / 16 < "0123456789abcdef".toList.length := by
      have := b.isLt
      show b.val / 16 < 16
      omega
    rw [List.getD_eq_getElem _ _ hlt, List.getElem?_eq_getElem hlt]
  · have hlt : b.val % 16 < "0123456789abcdef".toList.length := by
      show b.val % 16 < 16
      omega
    rw [List.getD_eq_getElem _ _ hlt, List.getElem?_eq_getElem hlt]

/-- C10: for a fixed identifier, two byte sequences with the same emitted text
are equal. -/
theorem writeData_injective (f : Flags) (data1 data2 : List Byte)
    (h : writeDataText f data1 = writeDataText f data2) : data1 = data2 := by
  have hb : writeDataBody f data1 = writeDataBody f data2 := by
    unfold writeDataBody
    rw [h]
  have ht := congrArg hexTokens hb
  rw [writeDataBody_eq, writeDataBody_eq, hexTokens_bodyFrom, hexTokens_bodyFrom] at ht
  exact List.map_injective_iff.mpr (fun a b hab => fmtHex_injective a b hab) ht

/-- C10 witness of `writeData_injective`: the same two bytes on both sides. -/
theorem writeData_injective_witness :
    writeDataText ⟨[], [], [], [], ["k".toList], []⟩ [0x12, 0xab] =
      writeDataText ⟨[], [], [], [], ["k".toList], []⟩ [0x12, 0xab] ∧
    ([0x12, 0xab] : List Byte) = [0x12, 0xab] :=
  ⟨rfl, writeData_injective ⟨[], [], [], [], ["k".toList], []⟩ [0x12, 0xab] [0x12, 0xab] rfl⟩

/-! ## Line breaks -/

theorem bodyFrom_enum (total : Nat) (data : List Byte) :
    ∀ i : Nat, total = i + data.length →
      bodyFrom total i data = ((List.enumFrom i data).map (fun (ib : Nat × Byte) =>
        "0x".toList ++ fmtHex 2 ib.2.val ++ ",".toList ++
          (if ib.1 + 1 < total then
            (if (ib.1 + 1) % 12 = 0 then "\n\t".toList else " ".toList)
          else []))).flatten := by
  induction data with
  | nil => intro i _; rfl
  | cons b rest ih =>
    intro i htot
    simp only [List.length_cons] at htot
    rw [bodyFrom, ih (i + 1) (by omega), List.enumFrom_cons, List.map_cons, List.flatten_cons]
    congr 2
    unfold sepAfter
    by_cases hlast : i + 1 = total
    · have hnlt : ¬ i + 1 < total := by omega
      simp only [if_pos hlast, if_neg hnlt]
    · have hlt : i + 1 < total := by omega
      simp only [if_neg hlast, if_pos hlt]

theorem entry_no_tab (t : Text) (h : IsEntry t) : '\t' ∉ t := by
  obtain ⟨c, d, hc, hd, rfl⟩ := h
  intro hm
  simp only [List.mem_cons, List.mem_singleton, List.not_mem_nil, or_false] at hm
  rcases hm with hm | hm | hm | hm | hm
  · exact absurd hm (by decide)
  · exact absurd hm (by decide)
  · rw [← hm] at hc; exact absurd hc (by decide)
  · rw [← hm] at hd; exact absurd hd (by decide)
  · exact absurd hm (by decide)

theorem entry_tokens (t : Text) (h : IsEntry t) :
    ∃ tok : Text, ∀ r : Text, hexTokens (t ++ r) = tok :: hexTokens r := by
  obtain ⟨c, d, hc, hd, rfl⟩ := h
  exact ⟨[c, d], fun r => hexTokens_entry c d hc hd r⟩

/-- C9: between two consecutive literals the loop writes a line break and a
tab exactly after every twelfth byte and a space otherwise, and nothing after
the last comma; every body line begins with its only tab; every body line but
the last holds twelve bytes; twenty bytes `ff` under the identifier `big` give
two body lines of twelve and eight bytes. -/
theorem body_line_breaks (f : Flags) (data : List Byte) :
    writeDataBody f data = ((List.enum data).map (fun (ib : Nat × Byte) =>
      "0x".toList ++ fmtHex 2 ib.2.val ++ ",".toList ++
        (if ib.1 + 1 < data.length then
          (if (ib.1 + 1) % 12 = 0 then "\n\t".toList else " ".toList)
        else []))).flatten ∧
    (∀ l ∈ bodyLines f data, ∃ r : Text, l = '\t' :: r ∧ '\t' ∉ r) ∧
    (∀ l ∈ (bodyLines f data).dropLast, (hexTokens l).length = 12) ∧
    (bodyLines ⟨[], [], [], [], ["big".toList], []⟩ (List.replicate 20 0xff)).map
      (fun l => (hexTokens l).length) = [12, 8] := by
  refine ⟨?_, ?_, ?_, by decide!⟩
  · rw [writeDataBody_eq]
    exact bodyFrom_enum data.length data 0 (by simp)
  · intro l hl
    rw [bodyLines_eq] at hl
    obtain ⟨full, final, hsp, hfull, hfin⟩ :=
      lines_induct data.length (fun _ cur => ∃ r : Text, cur = '\t' :: r ∧ '\t' ∉ r)
        (fun l => ∃ r : Text, l = '\t' :: r ∧ '\t' ∉ r)
        (fun l => ∃ r : Text, l = '\t' :: r ∧ '\t' ∉ r)
        (fun _ _ => ⟨[], rfl, by simp⟩)
        (fun _ cur t hI ht _ => by
          obtain ⟨r, rfl, hr⟩ := hI
          refine ⟨r ++ t ++ [' '], by simp, ?_⟩
          intro hm
          rcases List.mem_append.mp hm with hm | hm
          · rcases List.mem_append.mp hm with hm | hm
            · exact hr hm
            · exact entry_no_tab t ht hm
          · exact absurd hm (by decide))
        (fun _ cur t hI ht _ => by
          obtain ⟨r, rfl, hr⟩ := hI
          refine ⟨r ++ t, by simp, ?_⟩
          intro hm
          rcases List.mem_append.mp hm with hm | hm
          · exact hr hm
          · exact entry_no_tab t ht hm)
        (fun _ cur t hI ht => by
          obtain ⟨r, rfl, hr⟩ := hI
          refine ⟨r ++ t, by simp, ?_⟩
          intro hm
          rcases List.mem_append.mp hm with hm | hm
          · exact hr hm
          · exact entry_no_tab t ht hm)
        (fun _ cur hI => hI)
        data 0 ['\t'] (by simp) (by decide) ⟨[], rfl, by simp⟩
    rw [show '\t' :: bodyFrom data.length 0 data = ['\t'] ++ bodyFrom data.length 0 data from rfl,
      hsp] at hl
    rcases List.mem_append.mp hl with hl | hl
    · exact hfull l hl
    · rw [List.mem_singleton.mp hl]
      exact hfin
  · intro l hl
    rw [bodyLines_eq] at hl
    obtain ⟨full, final, hsp, hfull, _⟩ :=
      lines_induct data.length
        (fun i cur => (∀ x : Text, hexTokens (cur ++ x) = hexTokens cur ++ hexTokens x) ∧
          (hexTokens cur).length = i % 12)
        (fun l => (hexTokens l).length = 12) (fun _ => True)
        (fun i hi => ⟨fun x => by
          show hexTokens ('\t' :: x) = hexTokens ['\t'] ++ hexTokens x
          rw [hexTokens_skip _ _ (by decide), hexTokens_skip _ _ (by decide)]
          rfl, by
          rw [hexTokens_skip _ _ (by decide)]
          show 0 = i % 12
          omega⟩)
        (fun i cur t hI ht h12 => by
          obtain ⟨tok, htok⟩ := entry_tokens t ht
          have hcur : hexTokens (cur ++ t ++ [' ']) = hexTokens cur ++ [tok] := by
            rw [List.append_assoc, hI.1, htok, hexTokens_skip _ _ (by decide)]
            rfl
          refine ⟨fun x => ?_, ?_⟩
          · rw [hcur, List.append_assoc, List.append_assoc, hI.1, htok]
            show hexTokens cur ++ tok :: hexTokens (' ' :: x) = _
            rw [hexTokens_skip _ _ (by decide)]
            simp
          · rw [hcur, List.length_append, hI.2]
            simp only [List.length_singleton]
            omega)
        (fun i cur t hI ht h12 => by
          obtain ⟨tok, htok⟩ := entry_tokens t ht
          show (hexTokens (cur ++ t)).length = 12
          have ht2 := htok []
          rw [List.append_nil] at ht2
          rw [hI.1, ht2, List.length_append, hI.2]
          show i % 12 + 1 = 12
          omega)
        (fun _ _ _ _ _ => trivial)
        (fun _ _ _ => trivial)
        data 0 ['\t'] (by simp) (by decide)
        ⟨fun x => by
          show hexTokens ('\t' :: x) = hexTokens ['\t'] ++ hexTokens x
          rw [hexTokens_skip _ _ (by decide), hexTokens_skip _ _ (by decide)]
          rfl, by decide⟩
    rw [show '\t' :: bodyFrom data.length 0 data = ['\t'] ++ bodyFrom data.length 0 data from rfl,
      hsp, List.dropLast_concat] at hl
    exact hfull l hl

end Bin2go
